import Mathlib

/-!
Verification of the Topic Explorer link-resolution and normalization engine.

The engine (src/main.ts) extracts wikilink tokens from document text,
normalizes each one under capitalize/singularize rules, resolves them
against a document store, and reports dead references together with
normalization suggestions.  Strings are modelled as Lean `String`
(a wrapper around `List Char`), the document store as the list of its
file paths, JS `Set`/`Map` as insertion-ordered lists, and JS string
operations as the corresponding list operations restricted to ASCII.
-/

namespace TopicExplorer

/-- The plugin settings consulted by `normalizeLink`
(`capitalizeLinks`, `singularizeLinks` from `TopicExplorerSettings`). -/
structure Rules where
  capitalizeLinks : Bool
  singularizeLinks : Bool
deriving DecidableEq, Repr

/-- ASCII lowercase/uppercase letter pairs, the character table behind the
JS `toUpperCase`/`toLowerCase` calls in the source (ASCII fragment). -/
def asciiCaseMap : List (Char × Char) :=
  [('a','A'),('b','B'),('c','C'),('d','D'),('e','E'),('f','F'),('g','G'),
   ('h','H'),('i','I'),('j','J'),('k','K'),('l','L'),('m','M'),('n','N'),
   ('o','O'),('p','P'),('q','Q'),('r','R'),('s','S'),('t','T'),('u','U'),
   ('v','V'),('w','W'),('x','X'),('y','Y'),('z','Z')]

/-- JS `c.toUpperCase()` on one character (ASCII). -/
def upperChar (c : Char) : Char :=
  ((asciiCaseMap.find? (fun p => p.1 == c)).map Prod.snd).getD c

/-- JS `c.toLowerCase()` on one character (ASCII). -/
def lowerChar (c : Char) : Char :=
  ((asciiCaseMap.find? (fun p => p.2 == c)).map Prod.fst).getD c

/-- JS `s.toLowerCase()` on the character list of a string. -/
def lowerL (l : List Char) : List Char := l.map lowerChar

/-- JS `s.charAt(0).toUpperCase() + s.slice(1)` from `normalizeLink` rule 1. -/
def capitalizeFirst (s : String) : String :=
  match s.data with
  | [] => s
  | c :: cs => String.mk (upperChar c :: cs)

/-- The alias split of `normalizeLink`: `link.split('|')` with
`parts[0]` as the target and `'|' + parts.slice(1).join('|')` as the alias;
the target is the prefix before the first pipe and the alias is the verbatim
remainder from the first pipe on. -/
def splitAlias (link : String) : String × String :=
  if link.data.any (· == '|') then
    (String.mk (link.data.takeWhile (· != '|')), String.mk (link.data.dropWhile (· != '|')))
  else (link, "")

/-- `link.includes('|') ? link.split('|')[0] : link`, the alias-stripping
idiom used in `detectDeadWikilinks`, `updateView`, `fileExistsInVault` and
`createFileWithoutUI`. -/
def stripAlias (link : String) : String :=
  if link.data.any (· == '|') then String.mk (link.data.takeWhile (· != '|')) else link

/-- Modelled from the spec: invariant words of the `pluralize` npm library
(the library itself is a dependency, not part of src/); spec 4.2 step 3 calls
for built-in exceptions for words that are invariant. -/
def uncountables : List String := ["sheep", "fish", "deer", "series", "species", "moose"]

/-- Modelled from the spec: irregular plural/singular pairs of the
`pluralize` npm library (spec 4.2 step 3, irregular plurals). -/
def irregularPlurals : List (String × String) :=
  [("men","man"),("women","woman"),("children","child"),("people","person"),
   ("geese","goose"),("mice","mouse"),("feet","foot"),("teeth","tooth")]

/-- The singular side of `irregularPlurals`: words that are already singular
and must be left unchanged. -/
def irregularSingles : List String := irregularPlurals.map Prod.snd

/-- Modelled from the spec: case restoration of the `pluralize` library,
which matches case-insensitively and preserves a leading capital letter
in its output (spec 4.2 step 3). -/
def matchCase (orig repl : String) : String :=
  match orig.data with
  | c :: _ => if (asciiCaseMap.find? (fun p => p.2 == c)).isSome then capitalizeFirst repl else repl
  | [] => repl

/-- Suffixes for which plural `-es` stripping applies (regular `-es` plurals
after sibilant stems). -/
def esSuffixes : List (List Char) :=
  [['x','e','s'], ['c','h','e','s'], ['s','h','e','s'], ['s','s','e','s'], ['z','e','s']]

/-- Boolean prefix test on character lists. -/
def isPrefixOfB : List Char → List Char → Bool
  | [], _ => true
  | _ :: _, [] => false
  | a :: as, b :: bs => a == b && isPrefixOfB as bs

/-- Boolean infix (substring) test on character lists. -/
def isInfixOfB (pat : List Char) : List Char → Bool
  | [] => isPrefixOfB pat []
  | c :: cs => isPrefixOfB pat (c :: cs) || isInfixOfB pat cs

/-- JS `s.endsWith(suffix)` on character lists. -/
def endsWithB (l suffix : List Char) : Bool :=
  isPrefixOfB suffix.reverse l.reverse

/-- JS `s.replace(pat, '')` for a plain-string pattern: removes the first
occurrence of `pat` only. -/
def removeFirstSub : List Char → List Char → List Char
  | [], _ => []
  | c :: cs, pat =>
    if isPrefixOfB pat (c :: cs) then (c :: cs).drop pat.length
    else c :: removeFirstSub cs pat

/-- JS `path.split('/').pop()`: the final path segment (everything after the
last slash). -/
def lastSeg (l : List Char) : List Char :=
  (l.reverse.takeWhile (· != '/')).reverse

/-- Modelled from the spec: `pluralize.singular`, the singular-form reduction
the source imports from the `pluralize` npm package (absent from src/).
Spec 4.2 step 3: standard English pluralization heuristics - irregular
plurals, `-ies` to `-y`, `-es`/`-s` stripping, built-in exceptions for words
already singular or invariant; matching is case-insensitive, output is
case-preserving. -/
def singularSpec (s : String) : String :=
  let l := lowerL s.data
  if uncountables.any (fun u => u.data == l) then s
  else if irregularSingles.any (fun u => u.data == l) then s
  else
    match irregularPlurals.find? (fun p => p.1.data == l) with
    | some p => matchCase s p.2
    | none =>
      if endsWithB l ['i','e','s'] then
        String.mk (s.data.dropLast.dropLast.dropLast ++ ['y'])
      else if esSuffixes.any (fun suf => endsWithB l suf) then
        String.mk s.data.dropLast.dropLast
      else if endsWithB l ['s','s'] then s
      else if endsWithB l ['s'] then String.mk s.data.dropLast
      else s

/-- `normalizeLink` from src/main.ts: split off the alias, capitalize the
first letter if enabled, singularize if enabled, reattach the alias. -/
def normalizeLink (rules : Rules) (link : String) : String :=
  let parts := splitAlias link
  let link_text := parts.1
  let aliasPart := parts.2
  let n1 := if rules.capitalizeLinks then capitalizeFirst link_text else link_text
  let n2 := if rules.singularizeLinks then singularSpec n1 else n1
  n2 ++ aliasPart

/-- `normalizeLinkPath` from src/main.ts: append the fixed `.md` suffix. -/
def normalizeLinkPath (link : String) : String := link ++ ".md"

/-- The fallback-match predicate inside `fileExistsInVault`: the path must
end in `.md`, and its base name (final path segment with the first `.md`
occurrence removed, as JS `replace('.md','')` does) must equal the target
case-insensitively. -/
def fallbackMatch (link_text : String) (path : String) : Bool :=
  if endsWithB path.data ['.','m','d'] then
    lowerL (removeFirstSub (lastSeg path.data) ['.','m','d']) == lowerL link_text.data
  else false

/-- `fileExistsInVault` from src/main.ts over a store modelled as the list
of its file paths: exact-path lookup first, then a case-insensitive scan of
all files via `fallbackMatch`. -/
def fileExistsInVault (store : List String) (link : String) : Bool :=
  let link_text := stripAlias link
  let exact_path := normalizeLinkPath link_text
  if store.contains exact_path then true
  else store.any (fallbackMatch link_text)

/-- One matching attempt of `WIKILINK_REGEX` at a position just after an
opening `[[`: the token is the maximal nonempty run of characters other
than `]` and must be followed by `]]`. -/
def grabToken (l : List Char) : Option (List Char × List Char) :=
  match l.dropWhile (· != ']') with
  | ']' :: ']' :: rest =>
    if (l.takeWhile (· != ']')).isEmpty then none
    else some (l.takeWhile (· != ']'), rest)
  | _ => none

/-- The repeated-`exec` loop over `WIKILINK_REGEX` (leftmost, non-overlapping
matches of `[[` token `]]`), with fuel bounding the number of scanning steps;
each step consumes at least one character, so fuel equal to the input length
suffices. -/
def scanFuel : Nat → List Char → List (List Char)
  | 0, _ => []
  | _ + 1, [] => []
  | f + 1, c1 :: rest1 =>
    if c1 = '[' then
      match rest1 with
      | c2 :: rest2 =>
        if c2 = '[' then
          match grabToken rest2 with
          | some (t, r) => t :: scanFuel f r
          | none => scanFuel f rest1
        else scanFuel f rest1
      | [] => []
    else scanFuel f rest1

/-- The wikilink scanner: all `WIKILINK_REGEX` matches of a text, in order. -/
def scan (l : List Char) : List (List Char) := scanFuel l.length l

/-- The scanner on strings, as used by `detectDeadWikilinks` and
`updateView` to collect `match[1]` for every match. -/
def scanStr (s : String) : List String := (scan s.data).map String.mk

/-- Re-synthesis of a text from tokens: the concatenation of `[[t]]` for each
token t (character-list form). -/
def synth (ts : List (List Char)) : List Char :=
  ts.foldr (fun t acc => '[' :: '[' :: (t ++ ']' :: ']' :: acc)) []

/-- Re-synthesis of a text from tokens: the concatenation of `[[t]]` for each
token t. -/
def synthStr (ts : List String) : String :=
  ts.foldr (fun t acc => "[[" ++ t ++ "]]" ++ acc) ""

/-- JS `Set.add`: append if not yet present (insertion order preserved). -/
def setAdd (s : List String) (x : String) : List String :=
  if s.contains x then s else s ++ [x]

/-- JS `Map.set`: update the entry in place if the key exists, else append. -/
def mapSet : List (String × String) → String → String → List (String × String)
  | [], k, v => [(k, v)]
  | p :: ps, k, v => if p.1 == k then (k, v) :: ps else p :: mapSet ps k v

/-- JS `Map.get` (as an `Option`). -/
def mapGet (m : List (String × String)) (k : String) : Option String :=
  (m.find? (fun p => p.1 == k)).map Prod.snd

/-- One iteration of the shared link loop of `detectDeadWikilinks` and
`updateView`: strip the alias, normalize the target, record a normalization
entry if it differs from the target, and add the original link to the
dead-set when the normalized target does not resolve in the vault. -/
def fpStep (rules : Rules) (store : List String)
    (acc : List String × List (String × String)) (link : String) :
    List String × List (String × String) :=
  let link_target := stripAlias link
  let normalized_link := normalizeLink rules link_target
  let norms := if normalized_link ≠ link_target then mapSet acc.2 link normalized_link else acc.2
  let dead := if fileExistsInVault store normalized_link then acc.1 else setAdd acc.1 link
  (dead, norms)

/-- The shared first pass of `detectDeadWikilinks` and `updateView`: the link
loop over all scanned links, starting from an empty dead-set and map. -/
def firstPass (rules : Rules) (store : List String) (links : List String) :
    List String × List (String × String) :=
  links.foldl (fpStep rules store) ([], [])

/-- The settle pass of `detectDeadWikilinks` (lines 199-215): keep only the
currently-dead links whose normalized form (or the link itself when it has
no normalization entry) still has no exact-path file in the store. -/
def settlePass (store : List String) (dead : List String)
    (norms : List (String × String)) : List String :=
  dead.filter (fun link =>
    let normalized := (mapGet norms link).getD link
    let normalized_path := normalizeLinkPath normalized
    !(store.contains normalized_path))

/-- A reconciliation report: the dead-set and the original-to-normalized
map, both as insertion-ordered lists. -/
structure Report where
  dead : List String
  norms : List (String × String)
deriving DecidableEq, Repr

/-- `detectDeadWikilinks` from src/main.ts (the command-driven pass): scan,
first pass, then the settle pass - which only runs when the normalization
map is nonempty. -/
def detectDeadWikilinks (rules : Rules) (store : List String) (content : String) : Report :=
  let wikilinks := scanStr content
  let fp := firstPass rules store wikilinks
  let dead := if fp.2.isEmpty then fp.1 else settlePass store fp.1 fp.2
  ⟨dead, fp.2⟩

/-- The dead-link/normalization computation of `updateView` from src/main.ts
(the sidebar pass): scan and first pass only, with no settle pass. -/
def updateView (rules : Rules) (store : List String) (content : String) : Report :=
  let wikilinks := scanStr content
  let fp := firstPass rules store wikilinks
  ⟨fp.1, fp.2⟩

/-- Modelled from the spec: `vault.create` of the document store collaborator
(external to src/), which fails when the path already exists (spec 6:
`create(path, text) -> Document|fails(AlreadyExists|InvalidPath)`). -/
def vaultCreate (store : List String) (path : String) : Option (List String) :=
  if store.contains path then none else some (path :: store)

/-- `createFileWithoutUI` from src/main.ts, store-level effect: compute the
file path from the folder policy and the alias-stripped link and try to
create it; body generation failures are caught internally and never affect
the result, so only the store write can fail.  Returns success and the
resulting store. -/
def createFileWithoutUI (store : List String) (folder : String) (link : String) :
    Bool × List String :=
  let link_text := stripAlias link
  let file_path :=
    if folder ≠ "" ∧ folder ≠ "/" then folder ++ "/" ++ link_text ++ ".md"
    else link_text ++ ".md"
  match vaultCreate store file_path with
  | some store2 => (true, store2)
  | none => (false, store)

/-- One iteration of the `generateAllFiles` batch loop: create the file for
the link's normalized form (or the link itself when it has no normalization
entry), increment the success count on success, continue on failure. -/
def genStep (folder : String) (normalizedLinks : List (String × String))
    (acc : Nat × List String) (link : String) : Nat × List String :=
  let normalized := (mapGet normalizedLinks link).getD link
  let r := createFileWithoutUI acc.2 folder normalized
  (acc.1 + (if r.1 then 1 else 0), r.2)

/-- `generateAllFiles` from src/main.ts, store-level effect: process the dead
links sequentially, creating each one's normalized form via
`createFileWithoutUI`, counting successes and continuing past failures.
Returns the success count (reported as `Generated N of total`) and the final
store. -/
def generateAllFiles (store : List String) (folder : String)
    (normalizedLinks : List (String × String)) (deadLinks : List String) :
    Nat × List String :=
  deadLinks.foldl (genStep folder normalizedLinks) (0, store)

end TopicExplorer

namespace TopicExplorer

lemma mk_data (s : String) : String.mk s.data = s := by cases s; rfl

lemma data_append (a b : String) : (a ++ b).data = a.data ++ b.data := by cases a; cases b; rfl

lemma append_empty (s : String) : s ++ "" = s := by
  cases s with
  | mk d =>
    have h : (String.mk d ++ "").data = d := by simp [data_append]
    calc String.mk d ++ "" = String.mk (String.mk d ++ "").data := (mk_data _).symm
    _ = String.mk d := by rw [h]

lemma upperTable_closed : ∀ p ∈ asciiCaseMap, asciiCaseMap.find? (fun q => q.1 == p.2) = none := by
  decide

lemma upperTable_ne_pipe : ∀ p ∈ asciiCaseMap, p.2 ≠ '|' := by decide

lemma upperChar_idem (c : Char) : upperChar (upperChar c) = upperChar c := by
  cases hf : asciiCaseMap.find? (fun p => p.1 == c) with
  | none => simp [upperChar, hf]
  | some p =>
    have hp : p ∈ asciiCaseMap := List.mem_of_find?_eq_some hf
    simp [upperChar, hf, upperTable_closed p hp]

lemma upperChar_ne_pipe {c : Char} (h : c ≠ '|') : upperChar c ≠ '|' := by
  cases hf : asciiCaseMap.find? (fun p => p.1 == c) with
  | none => simp [upperChar, hf]; exact h
  | some p =>
    have hp : p ∈ asciiCaseMap := List.mem_of_find?_eq_some hf
    simpa [upperChar, hf] using upperTable_ne_pipe p hp

lemma capitalizeFirst_no_pipe {s : String} (h : '|' ∉ s.data) :
    '|' ∉ (capitalizeFirst s).data := by
  cases hd : s.data with
  | nil => simp [capitalizeFirst, hd]
  | cons c cs =>
    have hc : c ≠ '|' := by intro e; exact h (by rw [hd, e]; exact List.mem_cons_self _ _)
    have hcs : '|' ∉ cs := by intro e; exact h (by rw [hd]; exact List.mem_cons_of_mem _ e)
    simp only [capitalizeFirst, hd]
    intro hmem
    rcases List.mem_cons.mp hmem with h1 | h2
    · exact upperChar_ne_pipe hc h1.symm
    · exact hcs h2

lemma capitalizeFirst_idem (s : String) :
    capitalizeFirst (capitalizeFirst s) = capitalizeFirst s := by
  cases hd : s.data with
  | nil => simp [capitalizeFirst, hd]
  | cons c cs => simp [capitalizeFirst, hd, upperChar_idem]

lemma takeWhile_append_all {p : Char → Bool} {t r : List Char} (h : ∀ c ∈ t, p c = true) :
    (t ++ r).takeWhile p = t ++ r.takeWhile p := by
  induction t with
  | nil => simp
  | cons c cs ih =>
    have hc : p c = true := h c (List.mem_cons_self _ _)
    simp [List.takeWhile_cons, hc, ih (fun a ha => h a (List.mem_cons_of_mem _ ha))]

lemma dropWhile_append_all {p : Char → Bool} {t r : List Char} (h : ∀ c ∈ t, p c = true) :
    (t ++ r).dropWhile p = r.dropWhile p := by
  induction t with
  | nil => simp
  | cons c cs ih =>
    have hc : p c = true := h c (List.mem_cons_self _ _)
    simp [List.dropWhile_cons, hc, ih (fun a ha => h a (List.mem_cons_of_mem _ ha))]

lemma splitAlias_fst_no_pipe (x : String) : '|' ∉ (splitAlias x).1.data := by
  by_cases hx : x.data.any (· == '|')
  · simp only [splitAlias, hx, if_true]
    intro hmem
    have := List.mem_takeWhile_imp hmem
    simp at this
  · simp only [splitAlias, hx, if_false]
    intro hmem
    exact hx (List.any_eq_true.mpr ⟨'|', hmem, by simp⟩)

lemma dropWhile_pipe {l : List Char} (h : '|' ∈ l) :
    ∃ r, l.dropWhile (· != '|') = '|' :: r := by
  induction l with
  | nil => cases h
  | cons c cs ih =>
    by_cases hc : c = '|'
    · subst hc; exact ⟨cs, by simp [List.dropWhile_cons]⟩
    · have hmem : '|' ∈ cs := by
        rcases List.mem_cons.mp h with h1 | h2
        · exact absurd h1.symm hc
        · exact h2
      rcases ih hmem with ⟨r, hr⟩
      exact ⟨r, by simp [List.dropWhile_cons, hc, hr]⟩

lemma splitAlias_snd_shape (x : String) :
    (splitAlias x).2 = "" ∨ ∃ r, (splitAlias x).2.data = '|' :: r := by
  by_cases hx : x.data.any (· == '|')
  · right
    have hmem : '|' ∈ x.data := by
      rcases List.any_eq_true.mp hx with ⟨c, hc, he⟩
      simp at he; subst he; exact hc
    rcases dropWhile_pipe hmem with ⟨r, hr⟩
    refine ⟨r, ?_⟩
    simp only [splitAlias, hx, if_true]
    simpa using hr
  · left; simp [splitAlias, hx]

lemma splitAlias_append {u a : String} (hu : '|' ∉ u.data)
    (ha : a = "" ∨ ∃ r, a.data = '|' :: r) :
    splitAlias (u ++ a) = (u, a) := by
  rcases ha with ha | ⟨r, ha⟩
  · subst ha
    rw [append_empty]
    have hany : u.data.any (· == '|') = false := by
      rw [List.any_eq_false]
      intro c hc
      have hne : c ≠ '|' := fun e => hu (e ▸ hc)
      simpa using hne
    simp only [splitAlias]
    rw [if_neg (by simp [hany])]
  · have hdata : (u ++ a).data = u.data ++ '|' :: r := by rw [data_append, ha]
    have hany : (u ++ a).data.any (· == '|') = true := by
      rw [hdata]; exact List.any_eq_true.mpr ⟨'|', by simp, by simp⟩
    have hall : ∀ c ∈ u.data, (c != '|') = true := by
      intro c hc
      have hne : c ≠ '|' := fun e => hu (e ▸ hc)
      simpa using hne
    have htake : (u ++ a).data.takeWhile (· != '|') = u.data := by
      rw [hdata, takeWhile_append_all hall]
      simp [List.takeWhile_cons]
    have hdrop : (u ++ a).data.dropWhile (· != '|') = a.data := by
      rw [hdata, dropWhile_append_all hall, ha]
      simp [List.dropWhile_cons]
    simp only [splitAlias]
    rw [if_pos hany, htake, hdrop, mk_data, mk_data]

lemma normalizeLink_cap_idem (x : String) :
    normalizeLink ⟨true, false⟩ (normalizeLink ⟨true, false⟩ x) = normalizeLink ⟨true, false⟩ x := by
  have h1 : normalizeLink ⟨true, false⟩ x =
      capitalizeFirst (splitAlias x).1 ++ (splitAlias x).2 := by
    simp [normalizeLink]
  rw [h1]
  have hsplit : splitAlias (capitalizeFirst (splitAlias x).1 ++ (splitAlias x).2) =
      (capitalizeFirst (splitAlias x).1, (splitAlias x).2) :=
    splitAlias_append (capitalizeFirst_no_pipe (splitAlias_fst_no_pipe x))
      (splitAlias_snd_shape x)
  simp [normalizeLink, hsplit, capitalizeFirst_idem]

end TopicExplorer

namespace TopicExplorer

lemma data_mk (l : List Char) : (String.mk l).data = l := rfl

lemma grabToken_some {l t r : List Char} (h : grabToken l = some (t, r)) :
    t ≠ [] ∧ (∀ c ∈ t, c ≠ ']') ∧ l = t ++ ']' :: ']' :: r := by
  unfold grabToken at h
  split at h
  · split at h
    · exact absurd h (by simp)
    · rename_i rest heq hne
      injection h with h2
      injection h2 with ha hb
      subst hb
      refine ⟨?_, ?_, ?_⟩
      · rw [← ha]; simpa [List.isEmpty_iff] using hne
      · intro c hc
        rw [← ha] at hc
        have := List.mem_takeWhile_imp hc
        simpa using this
      · conv_lhs => rw [← List.takeWhile_append_dropWhile (p := (· != ']')) (l := l)]
        rw [heq, ha]
  · exact absurd h (by simp)

lemma grabToken_clean {t r : List Char} (ht : t ≠ []) (hcl : ∀ c ∈ t, c ≠ ']') :
    grabToken (t ++ ']' :: ']' :: r) = some (t, r) := by
  have hall : ∀ c ∈ t, (c != ']') = true := fun c hc => by simpa using hcl c hc
  have htake : (t ++ ']' :: ']' :: r).takeWhile (· != ']') = t := by
    rw [takeWhile_append_all hall]; simp [List.takeWhile_cons]
  have hdrop : (t ++ ']' :: ']' :: r).dropWhile (· != ']') = ']' :: ']' :: r := by
    rw [dropWhile_append_all hall]; simp [List.dropWhile_cons]
  unfold grabToken
  rw [htake, hdrop]
  simp [List.isEmpty_iff, ht]

lemma grabToken_some_length {l t r : List Char} (h : grabToken l = some (t, r)) :
    r.length + 2 ≤ l.length := by
  rcases grabToken_some h with ⟨-, -, hl⟩
  rw [hl]
  simp [List.length_append]

lemma scanFuel_nil : ∀ f, scanFuel f [] = [] := by
  intro f; cases f <;> rfl

lemma scanFuel_one (f : Nat) (c1 : Char) :
    scanFuel (f + 1) [c1] = if c1 = '[' then [] else scanFuel f [] := rfl

lemma scanFuel_two (f : Nat) (c1 c2 : Char) (rest2 : List Char) :
    scanFuel (f + 1) (c1 :: c2 :: rest2) =
      if c1 = '[' then
        (if c2 = '[' then
          (match grabToken rest2 with
           | some (t, r) => t :: scanFuel f r
           | none => scanFuel f (c2 :: rest2))
         else scanFuel f (c2 :: rest2))
      else scanFuel f (c2 :: rest2) := rfl

lemma scanFuel_congr : ∀ f g (l : List Char), l.length ≤ f → l.length ≤ g →
    scanFuel f l = scanFuel g l := by
  intro f
  induction f with
  | zero =>
    intro g l hf _
    have h0 : l = [] := List.length_eq_zero.mp (Nat.le_zero.mp hf)
    subst h0
    rw [scanFuel_nil, scanFuel_nil]
  | succ n ih =>
    intro g l hf hg
    cases g with
    | zero =>
      have h0 : l = [] := List.length_eq_zero.mp (Nat.le_zero.mp hg)
      subst h0
      rw [scanFuel_nil, scanFuel_nil]
    | succ m =>
      cases l with
      | nil => rw [scanFuel_nil, scanFuel_nil]
      | cons c1 rest1 =>
        cases rest1 with
        | nil =>
          rw [scanFuel_one, scanFuel_one]
          by_cases h1 : c1 = '['
          · rw [if_pos h1, if_pos h1]
          · rw [if_neg h1, if_neg h1, scanFuel_nil, scanFuel_nil]
        | cons c2 rest2 =>
          rw [scanFuel_two, scanFuel_two]
          have hl2 : (c2 :: rest2).length ≤ n := by simp at hf ⊢; omega
          have hl2g : (c2 :: rest2).length ≤ m := by simp at hg ⊢; omega
          by_cases h1 : c1 = '['
          · rw [if_pos h1, if_pos h1]
            by_cases h2 : c2 = '['
            · rw [if_pos h2, if_pos h2]
              cases hg2 : grabToken rest2 with
              | none => simp only [hg2]; exact ih _ _ hl2 hl2g
              | some p =>
                obtain ⟨t, r⟩ := p
                have hlen := grabToken_some_length hg2
                have h3 : r.length ≤ n := by simp at hf; omega
                have h4 : r.length ≤ m := by simp at hg; omega
                simp only [hg2]
                rw [ih _ _ h3 h4]
            · rw [if_neg h2, if_neg h2]; exact ih _ _ hl2 hl2g
          · rw [if_neg h1, if_neg h1]; exact ih _ _ hl2 hl2g

lemma scan_cons_token {t r : List Char} (ht : t ≠ []) (hcl : ∀ c ∈ t, c ≠ ']') :
    scan ('[' :: '[' :: (t ++ ']' :: ']' :: r)) = t :: scan r := by
  unfold scan
  have hlen : ('[' :: '[' :: (t ++ ']' :: ']' :: r)).length
      = ((t ++ ']' :: ']' :: r).length + 1) + 1 := by simp
  rw [hlen, scanFuel_two, if_pos rfl, if_pos rfl, grabToken_clean ht hcl]
  simp only []
  have hr : r.length ≤ (t ++ ']' :: ']' :: r).length + 1 := by
    simp [List.length_append]; omega
  rw [scanFuel_congr _ _ _ hr (Nat.le_refl _)]

lemma scanFuel_tokens : ∀ f (l : List Char) t, t ∈ scanFuel f l →
    t ≠ [] ∧ ∀ c ∈ t, c ≠ ']' := by
  intro f
  induction f with
  | zero => intro l t h; simp [scanFuel] at h
  | succ n ih =>
    intro l t h
    cases l with
    | nil => rw [scanFuel_nil] at h; cases h
    | cons c1 rest1 =>
      cases rest1 with
      | nil =>
        rw [scanFuel_one] at h
        by_cases h1 : c1 = '['
        · rw [if_pos h1] at h; cases h
        · rw [if_neg h1, scanFuel_nil] at h; cases h
      | cons c2 rest2 =>
        rw [scanFuel_two] at h
        by_cases h1 : c1 = '['
        · rw [if_pos h1] at h
          by_cases h2 : c2 = '['
          · rw [if_pos h2] at h
            cases hg : grabToken rest2 with
            | none => rw [hg] at h; exact ih _ t h
            | some p =>
              obtain ⟨t0, r⟩ := p
              rw [hg] at h
              simp only [] at h
              rcases List.mem_cons.mp h with he | hm
              · subst he
                rcases grabToken_some hg with ⟨ha, hb, -⟩
                exact ⟨ha, hb⟩
              · exact ih _ t hm
          · rw [if_neg h2] at h; exact ih _ t h
        · rw [if_neg h1] at h; exact ih _ t h

lemma scan_tokens {l t : List Char} (h : t ∈ scan l) : t ≠ [] ∧ ∀ c ∈ t, c ≠ ']' :=
  scanFuel_tokens _ _ t h

lemma scan_synth : ∀ ts : List (List Char),
    (∀ t ∈ ts, t ≠ [] ∧ ∀ c ∈ t, c ≠ ']') → scan (synth ts) = ts := by
  intro ts
  induction ts with
  | nil => intro _; rfl
  | cons t ts ih =>
    intro h
    have ht := h t (List.mem_cons_self _ _)
    have hsynth : synth (t :: ts) = '[' :: '[' :: (t ++ ']' :: ']' :: synth ts) := rfl
    rw [hsynth, scan_cons_token ht.1 ht.2, ih (fun x hx => h x (List.mem_cons_of_mem _ hx))]

lemma synthStr_data (ts : List String) : (synthStr ts).data = synth (ts.map String.data) := by
  induction ts with
  | nil => rfl
  | cons t ts ih =>
    have h1 : ("[[" : String).data = ['[', '['] := rfl
    have h2 : ("]]" : String).data = [']', ']'] := rfl
    show (("[[" ++ t ++ "]]" ++ synthStr ts)).data = _
    rw [data_append, data_append, data_append, h1, h2, ih]
    simp [synth, List.append_assoc]

end TopicExplorer

namespace TopicExplorer

lemma mapGet_nil (k : String) : mapGet [] k = none := rfl

lemma mapGet_cons (p : String × String) (ps : List (String × String)) (k : String) :
    mapGet (p :: ps) k = if p.1 == k then some p.2 else mapGet ps k := by
  by_cases h : p.1 == k
  · simp [mapGet, List.find?, h]
  · simp only [Bool.not_eq_true] at h
    simp [mapGet, List.find?, h]

lemma mapGet_mapSet_self (m : List (String × String)) (k v : String) :
    mapGet (mapSet m k v) k = some v := by
  induction m with
  | nil => simp [mapGet, mapSet, List.find?]
  | cons p ps ih =>
    by_cases hp : p.1 = k
    · simp [mapSet, hp, mapGet_cons]
    · have hb : (p.1 == k) = false := by simpa using hp
      rw [mapSet, if_neg (by simp [hb])]
      rw [mapGet_cons, hb, if_neg (by simp)]
      exact ih

lemma mapGet_mapSet_ne (m : List (String × String)) {k k' : String} (v : String)
    (h : k' ≠ k) : mapGet (mapSet m k v) k' = mapGet m k' := by
  have hk : (k == k') = false := by simp [beq_eq_false_iff_ne]; exact fun e => h e.symm
  induction m with
  | nil => simp [mapGet, mapSet, List.find?, hk]
  | cons p ps ih =>
    by_cases hp : p.1 = k
    · rw [mapSet]
      rw [if_pos (by simp [hp])]
      rw [mapGet_cons, mapGet_cons]
      simp only [hk, if_neg (by simp [hk] : ¬ (k == k') = true)]
      rw [hp] at *
      simp [hk]
    · rw [mapSet, if_neg (by simp [hp])]
      rw [mapGet_cons, mapGet_cons, ih]

end TopicExplorer

namespace TopicExplorer

lemma fpStep_norms (rules : Rules) (store : List String)
    (acc : List String × List (String × String)) (link : String) :
    (fpStep rules store acc link).2 =
      if normalizeLink rules (stripAlias link) ≠ stripAlias link
      then mapSet acc.2 link (normalizeLink rules (stripAlias link)) else acc.2 := rfl

lemma fp_norms_not_mem (rules : Rules) (store : List String) :
    ∀ (links : List String) (acc : List String × List (String × String)) (l : String),
      l ∉ links →
      mapGet (List.foldl (fpStep rules store) acc links).2 l = mapGet acc.2 l := by
  intro links
  induction links with
  | nil => intro acc l _; rfl
  | cons k ks ih =>
    intro acc l hl
    have hlk : l ≠ k := fun e => hl (e ▸ List.mem_cons_self _ _)
    have hlks : l ∉ ks := fun e => hl (List.mem_cons_of_mem _ e)
    rw [List.foldl_cons, ih _ _ hlks, fpStep_norms]
    by_cases hd : normalizeLink rules (stripAlias k) ≠ stripAlias k
    · rw [if_pos hd, mapGet_mapSet_ne _ _ hlk]
    · rw [if_neg hd]

lemma fp_norms_mem_diff (rules : Rules) (store : List String) :
    ∀ (links : List String) (acc : List String × List (String × String)) (l : String),
      l ∈ links →
      normalizeLink rules (stripAlias l) ≠ stripAlias l →
      mapGet (List.foldl (fpStep rules store) acc links).2 l
        = some (normalizeLink rules (stripAlias l)) := by
  intro links
  induction links with
  | nil => intro acc l hl; cases hl
  | cons k ks ih =>
    intro acc l hl hd
    by_cases hks : l ∈ ks
    · rw [List.foldl_cons]; exact ih _ _ hks hd
    · have hlk : l = k := by
        rcases List.mem_cons.mp hl with he | hm
        · exact he
        · exact absurd hm hks
      subst hlk
      rw [List.foldl_cons, fp_norms_not_mem rules store ks _ l hks, fpStep_norms,
        if_pos hd, mapGet_mapSet_self]

lemma fp_norms_mem_ndiff (rules : Rules) (store : List String) :
    ∀ (links : List String) (acc : List String × List (String × String)) (l : String),
      normalizeLink rules (stripAlias l) = stripAlias l →
      mapGet acc.2 l = none →
      mapGet (List.foldl (fpStep rules store) acc links).2 l = none := by
  intro links
  induction links with
  | nil => intro acc l _ h0; exact h0
  | cons k ks ih =>
    intro acc l hd h0
    rw [List.foldl_cons]
    refine ih _ l hd ?_
    rw [fpStep_norms]
    by_cases hdk : normalizeLink rules (stripAlias k) ≠ stripAlias k
    · rw [if_pos hdk]
      have hlk : l ≠ k := by
        intro e; subst e; exact hdk hd
      rw [mapGet_mapSet_ne _ _ hlk]
      exact h0
    · rw [if_neg hdk]; exact h0

lemma firstPass_norms_get (rules : Rules) (store : List String)
    (links : List String) (l : String) (hl : l ∈ links) :
    mapGet (firstPass rules store links).2 l =
      (if normalizeLink rules (stripAlias l) = stripAlias l then none
       else some (normalizeLink rules (stripAlias l))) := by
  by_cases hd : normalizeLink rules (stripAlias l) = stripAlias l
  · rw [if_pos hd]
    exact fp_norms_mem_ndiff rules store links ([], []) l hd rfl
  · rw [if_neg hd]
    exact fp_norms_mem_diff rules store links ([], []) l hl hd

lemma mem_settlePass {store : List String} {dead : List String}
    {norms : List (String × String)} {l : String}
    (h : l ∈ settlePass store dead norms) : l ∈ dead :=
  List.mem_of_mem_filter h

lemma detectDead_dead_cases (rules : Rules) (store : List String) (content : String) :
    (detectDeadWikilinks rules store content).dead =
      (if (firstPass rules store (scanStr content)).2.isEmpty
       then (firstPass rules store (scanStr content)).1
       else settlePass store (firstPass rules store (scanStr content)).1
         (firstPass rules store (scanStr content)).2) := rfl

lemma detectDead_norms (rules : Rules) (store : List String) (content : String) :
    (detectDeadWikilinks rules store content).norms
      = (firstPass rules store (scanStr content)).2 := rfl

lemma updateView_dead (rules : Rules) (store : List String) (content : String) :
    (updateView rules store content).dead = (firstPass rules store (scanStr content)).1 := rfl

lemma updateView_norms (rules : Rules) (store : List String) (content : String) :
    (updateView rules store content).norms = (firstPass rules store (scanStr content)).2 := rfl

lemma detectDead_dead_sub (rules : Rules) (store : List String) (content : String)
    (l : String) (h : l ∈ (detectDeadWikilinks rules store content).dead) :
    l ∈ (firstPass rules store (scanStr content)).1 := by
  rw [detectDead_dead_cases] at h
  by_cases he : (firstPass rules store (scanStr content)).2.isEmpty
  · rwa [if_pos he] at h
  · rw [if_neg he] at h
    exact mem_settlePass h

lemma createFile_fail_store {store : List String} {folder link : String}
    (h : (createFileWithoutUI store folder link).1 = false) :
    (createFileWithoutUI store folder link).2 = store := by
  simp only [createFileWithoutUI] at h ⊢
  cases hv : vaultCreate store
      (if folder ≠ "" ∧ folder ≠ "/" then folder ++ "/" ++ stripAlias link ++ ".md"
       else stripAlias link ++ ".md") with
  | none => rfl
  | some s2 => rw [hv] at h; simp at h

lemma genStep_count (folder : String) (m : List (String × String))
    (acc : Nat × List String) (link : String) :
    genStep folder m acc link
      = (acc.1 + (if (createFileWithoutUI acc.2 folder ((mapGet m link).getD link)).1
          then 1 else 0),
         (createFileWithoutUI acc.2 folder ((mapGet m link).getD link)).2) := rfl

lemma gen_shift (folder : String) (m : List (String × String)) :
    ∀ (links : List String) (c : Nat) (s : List String),
      List.foldl (genStep folder m) (c, s) links
        = (c + (List.foldl (genStep folder m) (0, s) links).1,
           (List.foldl (genStep folder m) (0, s) links).2) := by
  intro links
  induction links with
  | nil => intro c s; simp
  | cons k ks ih =>
    intro c s
    rw [List.foldl_cons, List.foldl_cons, genStep_count, genStep_count]
    simp only [Nat.zero_add]
    rw [ih, ih ((if (createFileWithoutUI s folder ((mapGet m k).getD k)).1 then 1 else 0))]
    simp [Nat.add_assoc]

end TopicExplorer

namespace TopicExplorer

lemma isPrefixOfB_append_self : ∀ (a b : List Char), isPrefixOfB a (a ++ b) = true := by
  intro a b
  induction a with
  | nil => rfl
  | cons c cs ih => simp [isPrefixOfB, ih]

lemma endsWithB_append (t s : List Char) : endsWithB (t ++ s) s = true := by
  unfold endsWithB
  rw [List.reverse_append]
  exact isPrefixOfB_append_self _ _

lemma takeWhile_all {p : Char → Bool} {l : List Char} (h : ∀ c ∈ l, p c = true) :
    l.takeWhile p = l := by
  have h2 := takeWhile_append_all (r := []) h
  simpa using h2

lemma lastSeg_no_slash {l : List Char} (h : '/' ∉ l) : lastSeg l = l := by
  unfold lastSeg
  rw [takeWhile_all, List.reverse_reverse]
  intro c hc
  have hm : c ∈ l := List.mem_reverse.mp hc
  have hne : c ≠ '/' := fun e => h (e ▸ hm)
  simpa using hne

lemma removeFirstSub_cons (c : Char) (cs pat : List Char) :
    removeFirstSub (c :: cs) pat =
      if isPrefixOfB pat (c :: cs) then (c :: cs).drop pat.length
      else c :: removeFirstSub cs pat := rfl

lemma contains_iff (l : List String) (a : String) : l.contains a = true ↔ a ∈ l := by
  constructor
  · intro h; exact List.elem_iff.mp h
  · intro h; exact List.elem_iff.mpr h

lemma removeFirstSub_md : ∀ (t : List Char), isInfixOfB ['.','m','d'] t = false →
    removeFirstSub (t ++ ['.','m','d']) ['.','m','d'] = t := by
  intro t
  induction t with
  | nil =>
    intro _
    simp only [List.nil_append]
    decide
  | cons c t ih =>
    intro h
    rw [isInfixOfB] at h
    have hpre : isPrefixOfB ['.','m','d'] (c :: t) = false := (Bool.or_eq_false_iff.mp h).1
    have hinf : isInfixOfB ['.','m','d'] t = false := (Bool.or_eq_false_iff.mp h).2
    have hmd1 : (('m' : Char) == '.') = false := by decide
    have hmd2 : (('d' : Char) == '.') = false := by decide
    have hkey : isPrefixOfB ['.','m','d'] (c :: (t ++ ['.','m','d'])) = false := by
      cases t with
      | nil => simp [isPrefixOfB, hmd1]
      | cons a t2 =>
        cases t2 with
        | nil => simp [isPrefixOfB, hmd2]
        | cons b t3 =>
          simp only [isPrefixOfB, List.cons_append, Bool.and_true] at hpre ⊢
          simpa using hpre
    rw [List.cons_append, removeFirstSub_cons, if_neg (by simp [hkey]), ih hinf]

/-- C4 amended: existence resolution is monotonic under case variation for
targets that are plain base names: if `exists(X)` holds and X's
alias-stripped target contains no path separator and no `.md` occurrence,
then `exists(Y)` holds for every Y whose alias-stripped base form equals
X's up to letter case, via the case-insensitive fallback scan. -/
theorem c4_amended_mono {store : List String} {x y : String}
    (hslash : '/' ∉ (stripAlias x).data)
    (hmd : isInfixOfB ['.','m','d'] (stripAlias x).data = false)
    (hcase : lowerL (stripAlias y).data = lowerL (stripAlias x).data)
    (hex : fileExistsInVault store x = true) :
    fileExistsInVault store y = true := by
  simp only [fileExistsInVault] at hex ⊢
  have hany : store.any (fallbackMatch (stripAlias y)) = true := by
    by_cases hc : store.contains (normalizeLinkPath (stripAlias x)) = true
    · have hmem : normalizeLinkPath (stripAlias x) ∈ store := (contains_iff _ _).mp hc
      apply List.any_eq_true.mpr
      refine ⟨normalizeLinkPath (stripAlias x), hmem, ?_⟩
      have hdata : (normalizeLinkPath (stripAlias x)).data
          = (stripAlias x).data ++ ['.','m','d'] := by
        rw [normalizeLinkPath, data_append]
      unfold fallbackMatch
      rw [hdata, if_pos (endsWithB_append _ _)]
      have hnos : '/' ∉ (stripAlias x).data ++ ['.','m','d'] := by
        intro hm
        rcases List.mem_append.mp hm with h1 | h2
        · exact hslash h1
        · simp at h2
      rw [lastSeg_no_slash hnos, removeFirstSub_md _ hmd, hcase]
      simp
    · rw [if_neg hc] at hex
      obtain ⟨p, hp, hpred⟩ := List.any_eq_true.mp hex
      apply List.any_eq_true.mpr
      refine ⟨p, hp, ?_⟩
      unfold fallbackMatch at hpred ⊢
      by_cases he : endsWithB p.data ['.','m','d'] = true
      · rw [if_pos he] at hpred ⊢
        rw [hcase]
        exact hpred
      · rw [if_neg he] at hpred; cases hpred
  by_cases hcy : store.contains (normalizeLinkPath (stripAlias y)) = true
  · rw [if_pos hcy]
  · rw [if_neg hcy]; exact hany

end TopicExplorer

namespace TopicExplorer

/-- C1: for the document text "See [[dogs]] and [[Cat|my cat]].", with
capitalize and singularize enabled and an empty document store, the
reconcile command returns the normalization map with the single entry
"dogs" to "Dog" (the reference "Cat|my cat" gets no entry because its
target "Cat" is already capitalized and singular) and the dead-set with
exactly "dogs" and "Cat|my cat", keyed by the original reference strings. -/
theorem c1_scenarioA :
    detectDeadWikilinks ⟨true, true⟩ [] "See [[dogs]] and [[Cat|my cat]]." =
      ⟨["dogs", "Cat|my cat"], [("dogs", "Dog")]⟩ := by decide

/-- C2 as stated is false at the aliased reference "dogs|pups": the
normalization map records the bare normalized target "Dog", not the
alias-reattached canonical string "Dog|pups" that the claim requires. -/
theorem c2_counterexample :
    (detectDeadWikilinks ⟨true, true⟩ [] "[[dogs|pups]]").norms
      = [("dogs|pups", "Dog")] ∧
    (detectDeadWikilinks ⟨true, true⟩ [] "[[dogs|pups]]").norms
      ≠ [("dogs|pups", "Dog|pups")] := by decide

/-- C2 amended: for every scanned reference (aliased or not), the value
recorded in the report's normalization map is the normalized target alone -
the alias is dropped, not reattached - and an entry is present exactly when
the normalized target differs from the reference's alias-stripped target. -/
theorem c2_amended_value (rules : Rules) (store : List String)
    (content : String) (l : String) (hl : l ∈ scanStr content) :
    mapGet (detectDeadWikilinks rules store content).norms l =
      (if normalizeLink rules (stripAlias l) = stripAlias l then none
       else some (normalizeLink rules (stripAlias l))) := by
  rw [detectDead_norms]
  exact firstPass_norms_get rules store (scanStr content) l hl

/-- Witness for C2's amended theorem at the aliased link "dogs|pups". -/
theorem c2_amended_value_witness :
    ("dogs|pups" : String) ∈ scanStr "[[dogs|pups]]" ∧
    mapGet (detectDeadWikilinks ⟨true, true⟩ [] "[[dogs|pups]]").norms "dogs|pups" =
      (if normalizeLink ⟨true, true⟩ (stripAlias "dogs|pups") = stripAlias "dogs|pups"
       then none
       else some (normalizeLink ⟨true, true⟩ (stripAlias "dogs|pups"))) :=
  ⟨by decide, c2_amended_value ⟨true, true⟩ [] "[[dogs|pups]]" "dogs|pups" (by decide)⟩

/-- C3: the settle pass only shrinks the dead-set - for every document text,
rule configuration and store, each reference in the final dead-set was in
the first pass's dead-set - and whenever the normalization map is nonempty
the final dead-set is exactly the first-pass dead-set filtered by an
exact-path store lookup (no case-insensitive fallback is consulted). -/
theorem c3_settle_shrinks (rules : Rules) (store : List String) (content : String) :
    (∀ l, l ∈ (detectDeadWikilinks rules store content).dead →
       l ∈ (firstPass rules store (scanStr content)).1) ∧
    ((firstPass rules store (scanStr content)).2 ≠ [] →
      (detectDeadWikilinks rules store content).dead =
        (firstPass rules store (scanStr content)).1.filter (fun link =>
          !(store.contains (normalizeLinkPath
            ((mapGet (firstPass rules store (scanStr content)).2 link).getD link))))) := by
  constructor
  · exact fun l h => detectDead_dead_sub rules store content l h
  · intro hne
    rw [detectDead_dead_cases,
      if_neg (by simpa [List.isEmpty_iff] using hne)]
    rfl

/-- Witness for C3 on Scenario A: "dogs" survives the settle pass and the
filter characterization holds there. -/
theorem c3_settle_shrinks_witness :
    ("dogs" : String) ∈
      (firstPass ⟨true, true⟩ [] (scanStr "See [[dogs]] and [[Cat|my cat]].")).1 ∧
    (detectDeadWikilinks ⟨true, true⟩ [] "See [[dogs]] and [[Cat|my cat]].").dead =
      (firstPass ⟨true, true⟩ [] (scanStr "See [[dogs]] and [[Cat|my cat]].")).1.filter
        (fun link =>
          !(([] : List String).contains (normalizeLinkPath
            ((mapGet (firstPass ⟨true, true⟩ []
              (scanStr "See [[dogs]] and [[Cat|my cat]].")).2 link).getD link)))) :=
  ⟨(c3_settle_shrinks ⟨true, true⟩ [] "See [[dogs]] and [[Cat|my cat]].").1 "dogs" (by decide),
   (c3_settle_shrinks ⟨true, true⟩ [] "See [[dogs]] and [[Cat|my cat]].").2 (by decide)⟩

/-- C4 as stated is false: with store {"a/b.md"}, exists("a/b") holds via
the exact path and "A/b" agrees with "a/b" up to letter case, yet
exists("A/b") is false - the fallback compares only the file's base name
"b" against the full target "A/b". -/
theorem c4_counterexample :
    fileExistsInVault ["a/b.md"] "a/b" = true ∧
    lowerL (stripAlias "A/b").data = lowerL (stripAlias "a/b").data ∧
    fileExistsInVault ["a/b.md"] "A/b" = false := by decide

/-- Witness for C4's amended monotonicity at target "dog" and variant "DOG". -/
theorem c4_amended_mono_witness :
    ('/' ∉ (stripAlias "dog").data) ∧
    (isInfixOfB ['.','m','d'] (stripAlias "dog").data = false) ∧
    (lowerL (stripAlias "DOG").data = lowerL (stripAlias "dog").data) ∧
    fileExistsInVault ["dog.md"] "dog" = true ∧
    fileExistsInVault ["dog.md"] "DOG" = true :=
  ⟨by decide, by decide, by decide, by decide,
   @c4_amended_mono ["dog.md"] "dog" "DOG" (by decide) (by decide) (by decide) (by decide)⟩

/-- C5 as stated is false for singularize alone at "mens": plain s-stripping
gives "men", and a second application maps the irregular plural "men" to
"man", so applying the rule to its own output is not a fixed point. -/
theorem c5_counterexample :
    normalizeLink ⟨false, true⟩ (normalizeLink ⟨false, true⟩ "mens") ≠
      normalizeLink ⟨false, true⟩ "mens" := by decide

/-- C5 amended: normalize with capitalize alone is idempotent on every
token; normalize with singularize alone is idempotent on a representative
set of regular and irregular plural forms (but not on every string). -/
theorem c5_amended_idem :
    (∀ x : String, normalizeLink ⟨true, false⟩ (normalizeLink ⟨true, false⟩ x)
        = normalizeLink ⟨true, false⟩ x) ∧
    (∀ x ∈ (["dogs", "Dogs", "cats", "ladies", "stories", "boxes", "churches",
             "geese", "mice", "feet", "teeth", "children", "men", "women",
             "people", "sheep", "fish", "series", "Cat", "dog", ""] : List String),
       normalizeLink ⟨false, true⟩ (normalizeLink ⟨false, true⟩ x)
         = normalizeLink ⟨false, true⟩ x) :=
  ⟨normalizeLink_cap_idem, by decide⟩

/-- Witness for C5's amended idempotence at an aliased token and a regular
plural. -/
theorem c5_amended_idem_witness :
    normalizeLink ⟨true, false⟩ (normalizeLink ⟨true, false⟩ "dogs|pups")
      = normalizeLink ⟨true, false⟩ "dogs|pups" ∧
    normalizeLink ⟨false, true⟩ (normalizeLink ⟨false, true⟩ "ladies")
      = normalizeLink ⟨false, true⟩ "ladies" :=
  ⟨c5_amended_idem.1 "dogs|pups", c5_amended_idem.2 "ladies" (by decide)⟩

/-- C6: scan round-trip - for every raw text, re-synthesizing the
concatenation of double-bracketed tokens returned by scan and re-scanning
yields exactly the same token sequence, in order, duplicates included. -/
theorem c6_scan_roundtrip (s : String) : scanStr (synthStr (scanStr s)) = scanStr s := by
  unfold scanStr
  have hdata : (synthStr ((scan s.data).map String.mk)).data = synth (scan s.data) := by
    rw [synthStr_data, List.map_map]
    have hcomp : (String.data ∘ String.mk) = (id : List Char → List Char) :=
      funext (fun l => rfl)
    rw [hcomp, List.map_id]
  rw [hdata, scan_synth (scan s.data) (fun t ht => scan_tokens ht)]

/-- C7: batch creation is fault-isolated per item: when the store write for
item y fails (in the store state reached after the preceding items xs), y
is abandoned with the store unchanged, the remaining items zs are still
processed in order from that same store, and the reported success count is
the count for xs plus the count for zs. -/
theorem c7_batch_fault_isolated (store : List String) (folder : String)
    (m : List (String × String)) (xs : List String) (y : String) (zs : List String)
    (hfail : (createFileWithoutUI (generateAllFiles store folder m xs).2 folder
        ((mapGet m y).getD y)).1 = false) :
    generateAllFiles store folder m (xs ++ y :: zs) =
      ((generateAllFiles store folder m xs).1 +
         (generateAllFiles (generateAllFiles store folder m xs).2 folder m zs).1,
       (generateAllFiles (generateAllFiles store folder m xs).2 folder m zs).2) := by
  simp only [generateAllFiles] at hfail ⊢
  rw [List.foldl_append, List.foldl_cons]
  have hstep : genStep folder m (List.foldl (genStep folder m) (0, store) xs) y
      = List.foldl (genStep folder m) (0, store) xs := by
    rw [genStep_count, hfail, createFile_fail_store hfail]
    simp
  rw [hstep]
  exact gen_shift folder m zs (List.foldl (genStep folder m) (0, store) xs).1
    (List.foldl (genStep folder m) (0, store) xs).2

/-- Witness for C7 on Scenario D: three items with the second's path already
present report two successes, the third is still created. -/
theorem c7_batch_fault_isolated_witness :
    ((createFileWithoutUI (generateAllFiles ["B.md"] "" [] ["A"]).2 ""
        ((mapGet [] "B").getD "B")).1 = false) ∧
    generateAllFiles ["B.md"] "" [] (["A"] ++ "B" :: ["C"]) =
      ((generateAllFiles ["B.md"] "" [] ["A"]).1 +
         (generateAllFiles (generateAllFiles ["B.md"] "" [] ["A"]).2 "" [] ["C"]).1,
       (generateAllFiles (generateAllFiles ["B.md"] "" [] ["A"]).2 "" [] ["C"]).2) ∧
    generateAllFiles ["B.md"] "" [] ["A", "B", "C"] = (2, ["C.md", "A.md", "B.md"]) :=
  ⟨by decide,
   c7_batch_fault_isolated ["B.md"] "" [] ["A"] "B" ["C"] (by decide),
   by decide⟩

/-- C8: when the scanner finds no references, both the command pass and the
sidebar pass return the empty report (empty dead-set and empty map), a
normal terminal state; both functions are total on every input string. -/
theorem c8_empty_scan_empty_report (rules : Rules) (store : List String)
    (content : String) (h : scanStr content = []) :
    detectDeadWikilinks rules store content = ⟨[], []⟩ ∧
    updateView rules store content = ⟨[], []⟩ := by
  constructor
  · simp only [detectDeadWikilinks, h]
    rfl
  · simp only [updateView, h]
    rfl

/-- Witness for C8 at the empty document. -/
theorem c8_empty_scan_empty_report_witness :
    scanStr "" = [] ∧
    detectDeadWikilinks ⟨true, true⟩ [] "" = ⟨[], []⟩ ∧
    updateView ⟨true, true⟩ [] "" = ⟨[], []⟩ :=
  ⟨by decide,
   (c8_empty_scan_empty_report ⟨true, true⟩ [] "" (by decide)).1,
   (c8_empty_scan_empty_report ⟨true, true⟩ [] "" (by decide)).2⟩

/-- C9: every token the scanner returns is a non-empty string containing no
closing-bracket character. -/
theorem c9_scan_token_shape (s t : String) (h : t ∈ scanStr s) :
    t ≠ "" ∧ ']' ∉ t.data := by
  unfold scanStr at h
  obtain ⟨l, hl, he⟩ := List.mem_map.mp h
  have htok := scan_tokens hl
  constructor
  · intro e
    apply htok.1
    have hd : t.data = [] := by rw [e]
    rw [← he] at hd
    exact hd
  · intro hc
    rw [← he] at hc
    exact htok.2 ']' hc rfl

/-- Witness for C9 at "[[a]]"; also records that "[[]]" yields no token. -/
theorem c9_scan_token_shape_witness :
    ("a" : String) ∈ scanStr "[[a]]" ∧
    (("a" : String) ≠ "" ∧ ']' ∉ ("a" : String).data) ∧
    scanStr "[[]]" = [] :=
  ⟨by decide, c9_scan_token_shape "[[a]]" "a" (by decide), by decide⟩

/-- C10 as stated is false: with capitalize enabled, store {"Cat|x.md"} and
text "See [[dogs]] and [[Cat|x]]", the sidebar pass reports both references
dead while the command pass's settle step resolves "Cat|x" through the
exact path "Cat|x.md", so the two reports differ. -/
theorem c10_counterexample :
    detectDeadWikilinks ⟨true, false⟩ ["Cat|x.md"] "See [[dogs]] and [[Cat|x]]" ≠
      updateView ⟨true, false⟩ ["Cat|x.md"] "See [[dogs]] and [[Cat|x]]" := by decide

/-- C10 amended: the two passes always produce the same normalization map,
and the command pass's dead-set is always a subset of the sidebar pass's
dead-set; they coincide exactly when the settle pass removes nothing. -/
theorem c10_amended_agree (rules : Rules) (store : List String) (content : String) :
    (detectDeadWikilinks rules store content).norms
      = (updateView rules store content).norms ∧
    ∀ l, l ∈ (detectDeadWikilinks rules store content).dead →
      l ∈ (updateView rules store content).dead := by
  constructor
  · rw [detectDead_norms, updateView_norms]
  · intro l h
    rw [updateView_dead]
    exact detectDead_dead_sub rules store content l h

/-- Witness for C10's amended agreement on the counterexample scenario. -/
theorem c10_amended_agree_witness :
    (detectDeadWikilinks ⟨true, false⟩ ["Cat|x.md"] "See [[dogs]] and [[Cat|x]]").norms
      = (updateView ⟨true, false⟩ ["Cat|x.md"] "See [[dogs]] and [[Cat|x]]").norms ∧
    ("dogs" : String) ∈
      (updateView ⟨true, false⟩ ["Cat|x.md"] "See [[dogs]] and [[Cat|x]]").dead :=
  ⟨(c10_amended_agree ⟨true, false⟩ ["Cat|x.md"] "See [[dogs]] and [[Cat|x]]").1,
   (c10_amended_agree ⟨true, false⟩ ["Cat|x.md"] "See [[dogs]] and [[Cat|x]]").2
     "dogs" (by decide)⟩

end TopicExplorer
